import Mathlib

/-!
# Verification of the operation/team lifecycle manager

A shallow embedding of `operation/operation.py` (the `Operation` cog): the
team-assignment weighting, the roster mutations (`opkick`, `opban`, the
`on_voice_state_update` join handler), the permission-overlay reconciliation
loop of `start_update`, and the archival logger `log` (chunking, author
collection, participation summary).

Discord members are identified by their integer id (discord.py compares
`Member` objects by id); a member's `top_role` rank is supplied as a function
`role : Nat → Nat` and permission overwrites are abstracted as `Nat` values
compared for equality, exactly as the source compares `PermissionOverwrite`
objects with `!=`.
-/

namespace Operation

/-- `MAX_FILE = 8_000_000` (operation.py line 25): the transcript-chunk
size threshold. -/
def MAX_FILE : Nat := 8000000

/-! ## TeamAssigner (operation.py lines 723-732)

```python
teams = op["teams"]
if len(teams) == 1:
    team = teams[0]
else:
    weights = [len(t.setdefault("soldiers", set())) for t in teams]
    m = max(weights)
    weights = [m - w for w in weights]
    if not any(weights):
        weights = [1] * len(weights)
    team = random.choices(teams, weights)[0]
```
-/

/-- `max(weights)` over the load vector (`maxLoad [] = 0`; the source only
calls `max` on a non-empty list). -/
def maxLoad (loads : List Nat) : Nat := loads.foldl max 0

/-- The weight vector handed to `random.choices`: `m - w` for each load `w`
where `m = max(loads)`, replaced by all-ones when every weight is zero
(`if not any(weights): weights = [1] * len(weights)`). -/
def selectWeights (loads : List Nat) : List Nat :=
  let m := maxLoad loads
  let ws := loads.map (fun w => m - w)
  if ws.all (fun w => w == 0) then List.replicate loads.length 1 else ws

/-- The probability that `random.choices(teams, weights)` returns index `i`:
`weights[i] / sum(weights)`. -/
def selectProb (loads : List Nat) (i : Nat) : ℚ :=
  ((selectWeights loads).getD i 0 : ℚ) / ((selectWeights loads).sum : ℚ)

/-! ## ArchiveLogger chunking (operation.py lines 118-124)

```python
bios = [BytesIO()]
async for message in channel.history(limit=None, oldest_first=True):
    bios[-1].writelines(message_format(message, last_message))
    if bios[-1].tell() > MAX_FILE:
        bios.append(BytesIO())
```
Each message contributes its formatted byte count to the current chunk; a
fresh chunk is opened when the current chunk strictly exceeds `MAX_FILE`.
Chunks are tracked in reverse (current chunk at the head). -/

/-- One iteration of the history loop: write the message's bytes into the
current chunk, then rotate if the chunk now exceeds `MAX_FILE`. -/
def chunkStep (acc : List Nat) (sz : Nat) : List Nat :=
  match acc with
  | [] => []
  | c :: rest => if MAX_FILE < c + sz then 0 :: (c + sz) :: rest else (c + sz) :: rest

/-- The chunk sizes produced by the history loop, newest chunk first. -/
def logChunksRev (sizes : List Nat) : List Nat := sizes.foldl chunkStep [0]

/-- The chunk sizes in creation order (`bios`). -/
def logChunks (sizes : List Nat) : List Nat := (logChunksRev sizes).reverse

/-! ## RosterManager state (operation.py lines 179-189, 215)

One `Team` per entry of `op["teams"]`; `OpState` is the per-guild `OpDict`
restricted to the fields the roster commands read and write (`teams` and
`blacklist`; the channel objects only receive permission side effects). -/

/-- A team: its leader's id and the `soldiers` member-id set. -/
structure Team where
  leader : Nat
  soldiers : Finset Nat
  deriving DecidableEq

/-- The mutable per-guild operation state used by the roster commands. -/
structure OpState where
  teams : List Team
  blacklist : Finset Nat
  deriving DecidableEq

/-- Placeholder team used for out-of-range `List.getD` reads. -/
def dteam : Team := ⟨0, ∅⟩

/-- Outcome reported by `opkick` / `opban`: the distinct `ctx.send` exits of
operation.py lines 531-547 / 557-573. -/
inductive OpResult where
  /-- "I cannot let you do that. Self-harm is bad" (target == actor). -/
  | selfTarget
  /-- "You can't kick/ban higher ranks." -/
  | insufficientAuthority
  /-- "You can't kick/ban leaders. Use disband instead." -/
  | leaderProtected
  /-- "Member ... has been kicked/banned from this op." -/
  | success
  deriving DecidableEq

/-- The team loop shared by `opkick` (lines 537-546) and `opban` (lines
564-572): walk the teams in order; on the first team whose leader is the
target, stop and report the error (`true`), leaving that team and all later
teams untouched; otherwise drop the target from the team's soldier set
(`if member not in team["soldiers"]: continue` / `team["soldiers"].remove`). -/
def kickTeams : List Team → Nat → List Team × Bool
  | [], _ => ([], false)
  | t :: ts, m =>
    if m = t.leader then (t :: ts, true)
    else ({ t with soldiers := t.soldiers.erase m } :: (kickTeams ts m).1, (kickTeams ts m).2)

/-- `opkick` (operation.py lines 523-547), for a guild with an ongoing op.
`special` is `ctx.author == ctx.guild.owner or await ctx.bot.is_owner(...)`;
`role` resolves a member id to its `top_role` rank. -/
def opkick (s : OpState) (actor target : Nat) (special : Bool) (role : Nat → Nat) :
    OpState × OpResult :=
  if target = actor then (s, .selfTarget)
  else if !special && role actor ≤ role target then (s, .insufficientAuthority)
  else if (kickTeams s.teams target).2 then
    ({ s with teams := (kickTeams s.teams target).1 }, .leaderProtected)
  else ({ s with teams := (kickTeams s.teams target).1 }, .success)

/-- `opban` (operation.py lines 549-573): same checks as `opkick`, except the
target is added to the blacklist (`op.setdefault("blacklist", set()).add`)
*before* the team loop runs its leader check. -/
def opban (s : OpState) (actor target : Nat) (special : Bool) (role : Nat → Nat) :
    OpState × OpResult :=
  if target = actor then (s, .selfTarget)
  else if !special && role actor ≤ role target then (s, .insufficientAuthority)
  else if (kickTeams s.teams target).2 then
    (⟨(kickTeams s.teams target).1, insert target s.blacklist⟩, .leaderProtected)
  else (⟨(kickTeams s.teams target).1, insert target s.blacklist⟩, .success)

/-- `team.setdefault("soldiers", set()).add(member)` on `teams[j]`
(operation.py line 733). -/
def assignTeam : List Team → Nat → Nat → List Team
  | [], _, _ => []
  | t :: ts, 0, m => { t with soldiers := insert m t.soldiers } :: ts
  | t :: ts, j + 1, m => t :: assignTeam ts j m

/-- The join path of `on_voice_state_update` (operation.py lines 709-733).
`isBot` is `member.bot`; `toStaging` bundles the channel guards
(`before.channel != after.channel and after.channel == op["staging"]`); `j` is
the index drawn by `random.choices` (forced to `0` when only one team
exists, matching `if len(teams) == 1: team = teams[0]`). -/
def on_voice_join (s : OpState) (member : Nat) (isBot toStaging : Bool) (j : Nat) : OpState :=
  if isBot then s
  else if !toStaging then s
  else if member ∈ s.blacklist then s
  else if s.teams.length = 1 then { s with teams := assignTeam s.teams 0 member }
  else { s with teams := assignTeam s.teams j member }

/-- Current team loads, as read at operation.py line 727. -/
def loads (s : OpState) : List Nat := s.teams.map (fun t => t.soldiers.card)

/-- Sum of all teams' soldier counts. -/
def totalSoldiers (s : OpState) : Nat := (s.teams.map (fun t => t.soldiers.card)).sum

/-- The spec's roster invariant: soldier sets of the operation's teams are
pairwise disjoint, and no team's soldier set contains any team's leader. -/
def Invariant (s : OpState) : Prop :=
  s.teams.Pairwise (fun a b => ∀ m ∈ a.soldiers, m ∉ b.soldiers) ∧
    ∀ t ∈ s.teams, ∀ u ∈ s.teams, t.leader ∉ u.soldiers

instance (s : OpState) : Decidable (Invariant s) := by
  unfold Invariant; infer_instance

/-- One roster-mutating action: a staging join event, an `opkick`, or an
`opban`. -/
inductive Step where
  | join (member : Nat) (isBot toStaging : Bool) (j : Nat)
  | kick (actor target : Nat) (special : Bool)
  | ban (actor target : Nat) (special : Bool)

/-- Execute one action against the operation state. -/
def applyStep (role : Nat → Nat) (s : OpState) : Step → OpState
  | .join m b g j => on_voice_join s m b g j
  | .kick a t sp => (opkick s a t sp role).1
  | .ban a t sp => (opban s a t sp role).1

/-- Execute a sequence of actions. -/
def run (role : Nat → Nat) (s : OpState) : List Step → OpState
  | [] => s
  | st :: rest => run role (applyStep role s st) rest

/-- Guard that a join event only brings in genuinely new participants: the
member is no team's leader and not already any team's soldier. The staging
permission overwrites written by `start_update` and `on_voice_state_update`
are meant to ensure this (joined members and leaders are denied `connect` on
staging), but the handler itself never checks it. -/
def freshJoiner (s : OpState) (m : Nat) : Bool :=
  s.teams.all (fun t => decide (t.leader ≠ m) && decide (m ∉ t.soldiers))

/-- A step sequence is `good` when every join satisfies `freshJoiner` at the
moment it is applied. -/
def good (role : Nat → Nat) (s : OpState) : List Step → Bool
  | [] => true
  | st :: rest =>
    (match st with
      | .join m _ _ _ => freshJoiner s m
      | _ => true) &&
    good role (applyStep role s st) rest

/-! ## AccessOverlaySynchronizer (operation.py lines 437-444)

```python
current_overs = cat.overwrites
for item, overs in cat_overs.items():
    c = current_overs.pop(item, None)
    if c != overs:
        await cat.set_permissions(item, overwrite=overs, reason=reason)
for item, overs in current_overs.items():
    await cat.set_permissions(item, overwrite=None, reason=reason)
```
Overlays are association lists from subject id to an (abstract) permission
overwrite; a Python dict has no duplicate keys, captured by `ovNodup`. -/

/-- One remote permission mutation: `set_permissions(item, overwrite=overs)`
or `set_permissions(item, overwrite=None)`. -/
inductive PermWrite where
  | set (subject perm : Nat)
  | clear (subject : Nat)
  deriving DecidableEq

/-- The subject an overlay write targets. -/
def PermWrite.subject : PermWrite → Nat
  | .set s _ => s
  | .clear s => s

/-- Dict lookup (`current_overs.pop(item, None)`'s returned value). -/
def ovLookup : List (Nat × Nat) → Nat → Option Nat
  | [], _ => none
  | (k, v) :: rest, x => if x = k then some v else ovLookup rest x

/-- Dict key removal (`current_overs.pop(item, None)`'s removal effect). -/
def ovRemove : List (Nat × Nat) → Nat → List (Nat × Nat)
  | [], _ => []
  | (k, v) :: rest, x => if x = k then ovRemove rest x else (k, v) :: ovRemove rest x

/-- A Python dict as an association list: keys occur at most once. -/
def ovNodup (l : List (Nat × Nat)) : Prop := (l.map Prod.fst).Nodup

instance (l : List (Nat × Nat)) : Decidable (ovNodup l) := by
  unfold ovNodup; infer_instance

/-- The sequence of permission writes issued by the reconciliation loop:
for every desired entry differing from the current one, one `set`; then one
`clear` for every entry left in `current` after the pops. -/
def reconcile : List (Nat × Nat) → List (Nat × Nat) → List PermWrite
  | [], current => current.map (fun p => .clear p.1)
  | (k, v) :: rest, current =>
    if ovLookup current k ≠ some v then .set k v :: reconcile rest (ovRemove current k)
    else reconcile rest (ovRemove current k)

/-- How many of the issued writes target subject `s`. -/
def countWrites (s : Nat) (ws : List PermWrite) : Nat :=
  ws.countP (fun w => w.subject == s)

/-! ## ArchiveLogger (operation.py lines 116-176)

A history message is abstracted to its author id, the author's bot flag and
the total byte count of its `message_format` lines. -/

/-- One message of the channel history. -/
structure Message where
  authorId : Nat
  authorBot : Bool
  bytes : Nat
  deriving DecidableEq

/-- Roster flags of the participation summary (operation.py line 146). -/
inductive Flag where
  /-- `*`: member never spoke in the operation channel. -/
  | star
  /-- `✝`: member left mid-operation but still spoke in the channel. -/
  | dagger
  deriving DecidableEq

/-- The non-bot message authors collected by the history loop
(`if not message.author.bot: members.add(message.author)`). -/
def logAuthors (msgs : List Message) : Finset Nat :=
  msgs.foldl (fun acc msg => if msg.authorBot then acc else insert msg.authorId acc) ∅

/-- Enumerate a finite id set as an ascending list (Python iterates the set
in arbitrary order; the summary's sort key is strict on distinct ids, so the
final sorted listing does not depend on the enumeration order). -/
def sortedIds (s : Finset Nat) : List Nat :=
  Quot.liftOn s.val (fun l => List.insertionSort (fun a b => a ≤ b) l) (fun a b hab =>
    List.eq_of_perm_of_sorted
      ((List.perm_insertionSort _ a).trans (hab.trans (List.perm_insertionSort _ b).symm))
      (List.sorted_insertionSort _ a) (List.sorted_insertionSort _ b))

/-- The order of the summary listing, from
`sorted(..., key=lambda m: (m.top_role, -m.id), reverse=True)`:
descending `top_role`, then ascending id. -/
def rosterLe (role : Nat → Nat) (a b : Nat) : Prop :=
  role b < role a ∨ (role b = role a ∧ a ≤ b)

instance (role : Nat → Nat) : DecidableRel (rosterLe role) := fun _ _ => by
  unfold rosterLe; infer_instance

/-- The summary lines: `soldiers | members` sorted, each with its flag
(`'*' if m not in members else ('✝' if m not in soldiers else '')`).
`members` is the author set *after* `members.discard(team["leader"])`. -/
def summaryEntries (role : Nat → Nat) (soldiers members : Finset Nat) :
    List (Nat × Option Flag) :=
  (List.insertionSort (rosterLe role) (sortedIds (soldiers ∪ members))).map
    (fun m => (m, if m ∉ members then some Flag.star
                  else if m ∉ soldiers then some Flag.dagger else none))

/-- The archive produced by `log`: `none` when nothing is sent
(`if not last_message or not members: return`), otherwise the transcript
chunk sizes and the summary roster. The leader is discarded from the author
set (`members.discard(team["leader"])`) before the summary is built. -/
def logModel (role : Nat → Nat) (soldiers : Finset Nat) (leader : Nat)
    (msgs : List Message) : Option (List Nat × List (Nat × Option Flag)) :=
  if msgs = [] ∨ logAuthors msgs = ∅ then none
  else some (logChunks (msgs.map Message.bytes),
             summaryEntries role soldiers ((logAuthors msgs).erase leader))

/-- The roster ordering the spec claims: descending authority rank, then
*descending* id. Written from the spec's words, to be compared with the
code's `rosterLe`. -/
def specRosterLe (role : Nat → Nat) (a b : Nat) : Prop :=
  role b < role a ∨ (role b = role a ∧ b ≤ a)

instance (role : Nat → Nat) : DecidableRel (specRosterLe role) := fun _ _ => by
  unfold specRosterLe; infer_instance

/-- The summary roster the spec claims: `(tracked soldiers ∪ leader) ∪
(distinct non-bot message authors)`, ordered by descending rank then
descending id. Written from the spec's words, to be compared with the
code's summary. -/
def specSummaryRoster (role : Nat → Nat) (soldiers : Finset Nat) (leader : Nat)
    (authors : Finset Nat) : List Nat :=
  List.insertionSort (specRosterLe role) (sortedIds (insert leader soldiers ∪ authors))

/-! ## start_update provisioning control flow (operation.py lines 298-490)

The command registers the guild in `self.operations` (line 317) before any
validation or provisioning. Validation failures and a declined confirmation
`pop` the guild back out (lines 332, 341, 350, 378, 415); the collaborator
calls that provision the category (lines 429-444), the team text channels
(lines 457-464) and the staging voice channel (lines 469-482) are not
wrapped in any exception handler, so a raise simply propagates out of the
command. Each boolean of `StartEnv` records the outcome of the corresponding
guard or collaborator call. -/

/-- Environment of one `start_update` invocation. -/
structure StartEnv where
  /-- Line 314: `ctx.guild in self.operations`. -/
  alreadyActive : Bool
  /-- Line 330: `args[Role] - default_roles` is non-empty (joint op). -/
  jointExtra : Bool
  /-- Line 331: `await _requires(ctx, COMMAND)`. -/
  hasCommandRank : Bool
  /-- Lines 371-377: the confirmation reaction arrived and was "yes". -/
  confirmed : Bool
  /-- Line 414: every leader holds at least one joint role. -/
  leadersHaveRole : Bool
  /-- Lines 429-444: fetching/creating the category succeeds. -/
  categoryOk : Bool
  /-- Lines 457-464: creating the team text channels succeeds. -/
  channelsOk : Bool
  /-- Lines 469-482: creating/editing the staging voice channel succeeds. -/
  stagingOk : Bool

/-- How one `start_update` invocation ends. -/
inductive StartOutcome where
  | alreadyActive
  | insufficientAuthority
  | cancelled
  | invalidComposition
  /-- An unhandled exception raised by a collaborator call. -/
  | collaboratorError
  | success
  deriving DecidableEq

/-- What is left behind by a `start_update` invocation: whether the guild is
(still) registered in `self.operations`, which resources were provisioned,
and the outcome. -/
structure StartResult where
  registered : Bool
  categoryProvisioned : Bool
  channelsProvisioned : Bool
  stagingProvisioned : Bool
  outcome : StartOutcome
  deriving DecidableEq

/-- The control flow of `start_update`, in source order. -/
def start_update (env : StartEnv) : StartResult :=
  if env.alreadyActive then ⟨false, false, false, false, .alreadyActive⟩
  else if env.jointExtra && !env.hasCommandRank then
    ⟨false, false, false, false, .insufficientAuthority⟩
  else if !env.confirmed then ⟨false, false, false, false, .cancelled⟩
  else if !env.leadersHaveRole then ⟨false, false, false, false, .invalidComposition⟩
  else if !env.categoryOk then ⟨true, false, false, false, .collaboratorError⟩
  else if !env.channelsOk then ⟨true, true, false, false, .collaboratorError⟩
  else if !env.stagingOk then ⟨true, true, true, false, .collaboratorError⟩
  else ⟨true, true, true, true, .success⟩

/-! ## Helper lemmas -/

theorem foldl_max_le_of_mem : ∀ (l : List Nat) (a x : Nat), x ∈ l → x ≤ l.foldl max a := by
  intro l
  induction l with
  | nil => intro a x hx; cases hx
  | cons b t ih =>
    intro a x hx
    rcases List.mem_cons.mp hx with rfl | hx
    · calc x ≤ max a x := le_max_right a x
        _ ≤ List.foldl max (max a x) t := by
          clear ih hx
          induction t generalizing a x with
          | nil => simp
          | cons c t ih => exact le_trans (le_max_left _ c) (ih (max a x) c)
    · exact ih (max a b) x hx

theorem le_maxLoad {l : List Nat} {x : Nat} (h : x ∈ l) : x ≤ maxLoad l :=
  foldl_max_le_of_mem l 0 x h

theorem allzero_iff (loads : List Nat) :
    ((loads.map (fun w => maxLoad loads - w)).all (fun w => w == 0) = true) ↔
      ∀ x ∈ loads, x = maxLoad loads := by
  simp only [List.all_eq_true, List.mem_map, forall_exists_index, and_imp]
  constructor
  · intro hz x hx
    have := hz _ x hx rfl
    simp only [beq_iff_eq] at this
    exact le_antisymm (le_maxLoad hx) (Nat.sub_eq_zero_iff_le.mp this)
  · rintro he w x hx rfl
    simp only [beq_iff_eq]
    exact Nat.sub_eq_zero_iff_le.mpr (le_of_eq (he x hx).symm)

/-- Invariant of the chunk accumulator: non-empty, current chunk within the
bound, every already-rotated chunk strictly above it. -/
def ChunkInv (l : List Nat) : Prop :=
  ∃ c rest, l = c :: rest ∧ c ≤ MAX_FILE ∧ ∀ x ∈ rest, MAX_FILE < x

theorem chunkStep_inv {acc : List Nat} (sz : Nat) (h : ChunkInv acc) :
    ChunkInv (chunkStep acc sz) ∧ (chunkStep acc sz).sum = acc.sum + sz := by
  obtain ⟨c, rest, rfl, hc, hrest⟩ := h
  by_cases hgt : MAX_FILE < c + sz
  · refine ⟨⟨0, (c + sz) :: rest, ?_, Nat.zero_le _, ?_⟩, ?_⟩
    · simp [chunkStep, hgt]
    · intro x hx
      rcases List.mem_cons.mp hx with rfl | hx
      · exact hgt
      · exact hrest x hx
    · simp [chunkStep, hgt]; omega
  · refine ⟨⟨c + sz, rest, ?_, by omega, hrest⟩, ?_⟩
    · simp [chunkStep, hgt]
    · simp [chunkStep, hgt]; omega

theorem foldl_chunk_inv : ∀ (sizes : List Nat) (acc : List Nat), ChunkInv acc →
    ChunkInv (sizes.foldl chunkStep acc) ∧
      (sizes.foldl chunkStep acc).sum = acc.sum + sizes.sum := by
  intro sizes
  induction sizes with
  | nil => intro acc h; simpa using h
  | cons sz rest ih =>
    intro acc h
    obtain ⟨h1, h2⟩ := chunkStep_inv sz h
    obtain ⟨h3, h4⟩ := ih _ h1
    refine ⟨by simpa using h3, ?_⟩
    simp only [List.foldl_cons] at *
    rw [h4, h2, List.sum_cons]
    omega

theorem logChunksRev_spec (sizes : List Nat) :
    ChunkInv (logChunksRev sizes) ∧ (logChunksRev sizes).sum = sizes.sum := by
  obtain ⟨h1, h2⟩ := foldl_chunk_inv sizes [0] ⟨0, [], rfl, Nat.zero_le _, by simp⟩
  exact ⟨h1, by simpa using h2⟩

theorem ovLookup_ovRemove (C : List (Nat × Nat)) (k s : Nat) :
    ovLookup (ovRemove C k) s = if s = k then none else ovLookup C s := by
  induction C with
  | nil => simp [ovRemove, ovLookup]
  | cons p rest ih =>
    obtain ⟨k', v'⟩ := p
    by_cases hk : k = k'
    · subst hk
      rw [ovRemove, if_pos rfl, ih, ovLookup]
      by_cases hs : s = k
      · simp [hs]
      · simp [hs]
    · rw [ovRemove, if_neg hk, ovLookup, ovLookup]
      by_cases hs : s = k'
      · subst hs
        rw [if_pos rfl, if_pos rfl, if_neg (by omega)]
      · rw [if_neg hs, if_neg hs, ih]

theorem mem_map_fst_ovRemove {C : List (Nat × Nat)} {x s : Nat}
    (h : s ∈ (ovRemove C x).map Prod.fst) : s ∈ C.map Prod.fst := by
  induction C with
  | nil => exact h
  | cons p rest ih =>
    obtain ⟨k, v⟩ := p
    by_cases hk : x = k
    · rw [ovRemove, if_pos hk] at h
      exact List.mem_cons.mpr (Or.inr (ih h))
    · rw [ovRemove, if_neg hk, List.map_cons] at h
      rcases List.mem_cons.mp h with h1 | h2
      · simp [h1]
      · exact List.mem_cons.mpr (Or.inr (ih h2))

theorem ovRemove_nodup {C : List (Nat × Nat)} (k : Nat) (h : ovNodup C) :
    ovNodup (ovRemove C k) := by
  induction C with
  | nil => exact h
  | cons p rest ih =>
    obtain ⟨k', v'⟩ := p
    rw [ovNodup, List.map_cons, List.nodup_cons] at h
    by_cases hk : k = k'
    · rw [ovRemove, if_pos hk]
      exact ih h.2
    · rw [ovRemove, if_neg hk, ovNodup, List.map_cons, List.nodup_cons]
      exact ⟨fun hmem => h.1 (mem_map_fst_ovRemove hmem), ih h.2⟩

theorem ovLookup_eq_none_of_not_mem {C : List (Nat × Nat)} {s : Nat}
    (h : s ∉ C.map Prod.fst) : ovLookup C s = none := by
  induction C with
  | nil => rfl
  | cons p rest ih =>
    obtain ⟨k, v⟩ := p
    simp only [List.map_cons, List.mem_cons] at h
    push_neg at h
    rw [ovLookup, if_neg h.1]
    exact ih h.2

theorem ovRemove_eq_of_not_mem {C : List (Nat × Nat)} {k : Nat}
    (h : k ∉ C.map Prod.fst) : ovRemove C k = C := by
  induction C with
  | nil => rfl
  | cons p rest ih =>
    obtain ⟨k', v'⟩ := p
    simp only [List.map_cons, List.mem_cons] at h
    push_neg at h
    rw [ovRemove, if_neg h.1, ih h.2]

theorem countWrites_clears {C : List (Nat × Nat)} (s : Nat) (hC : ovNodup C) :
    countWrites s (C.map (fun p => .clear p.1)) =
      if ovLookup C s = none then 0 else 1 := by
  induction C with
  | nil => simp [countWrites, ovLookup]
  | cons p rest ih =>
    obtain ⟨k, v⟩ := p
    rw [ovNodup, List.map_cons, List.nodup_cons] at hC
    rw [List.map_cons, countWrites, List.countP_cons, ← countWrites, ih hC.2, ovLookup]
    by_cases hs : s = k
    · subst hs
      rw [if_pos rfl, ovLookup_eq_none_of_not_mem hC.1]
      simp [PermWrite.subject]
    · rw [if_neg hs]
      simp [PermWrite.subject, Ne.symm hs]

theorem reconcile_count : ∀ (D C : List (Nat × Nat)), ovNodup D → ovNodup C → ∀ s : Nat,
    countWrites s (reconcile D C) = if ovLookup C s = ovLookup D s then 0 else 1 := by
  intro D
  induction D with
  | nil =>
    intro C _ hC s
    rw [reconcile, countWrites_clears s hC, ovLookup]
  | cons p rest ih =>
    intro C hD hC s
    obtain ⟨k, v⟩ := p
    rw [ovNodup, List.map_cons, List.nodup_cons] at hD
    have hC' := ovRemove_nodup k hC
    have key := ih (ovRemove C k) hD.2 hC' s
    by_cases hs : s = k
    · subst hs
      have h1 : ovLookup (ovRemove C s) s = none := by rw [ovLookup_ovRemove]; simp
      have h2 : ovLookup rest s = none := ovLookup_eq_none_of_not_mem hD.1
      rw [h1, h2, if_pos rfl] at key
      rw [reconcile]
      by_cases hv : ovLookup C s = some v
      · rw [if_neg (by simpa using hv), ovLookup, if_pos rfl, hv, if_pos rfl]
        exact key
      · rw [if_pos (by simpa using hv), ovLookup, if_pos rfl, if_neg hv,
          countWrites, List.countP_cons, ← countWrites, key]
        simp [PermWrite.subject]
    · have h1 : ovLookup (ovRemove C k) s = ovLookup C s := by
        rw [ovLookup_ovRemove, if_neg hs]
      have h2 : ovLookup ((k, v) :: rest) s = ovLookup rest s := by
        rw [ovLookup, if_neg hs]
      rw [h1] at key
      rw [reconcile, h2]
      by_cases hv : ovLookup C k = some v
      · rw [if_neg (by simpa using hv)]
        exact key
      · rw [if_pos (by simpa using hv), countWrites, List.countP_cons, ← countWrites, key]
        have hks : ¬ k = s := fun h => hs h.symm
        simp [PermWrite.subject, hks]

theorem reconcile_self : ∀ (D : List (Nat × Nat)), ovNodup D → reconcile D D = [] := by
  intro D
  induction D with
  | nil => intro _; rfl
  | cons p rest ih =>
    obtain ⟨k, v⟩ := p
    intro hD
    rw [ovNodup, List.map_cons, List.nodup_cons] at hD
    rw [reconcile, ovLookup, if_pos rfl, if_neg (by simp), ovRemove, if_pos rfl,
      ovRemove_eq_of_not_mem hD.1]
    exact ih hD.2

/-! ## Claim theorems -/

/-- C1: selecting a team for a joining participant is a single weighted
random draw in which team `i` has weight `max(loads) - loads[i]`, falling
back to uniform weight 1 for every team when all those weights are zero;
with loads `[3, 5]` index 0 is drawn with probability 1 (index 1 with
probability 0), and with loads `[2, 2]` each index is drawn with
probability 1/2. -/
theorem teamAssigner_weighting (loads : List Nat) (i : Nat) (h : i < loads.length) :
    ((∀ x ∈ loads, x = maxLoad loads) → (selectWeights loads).getD i 0 = 1) ∧
    (¬ (∀ x ∈ loads, x = maxLoad loads) →
      (selectWeights loads).getD i 0 = maxLoad loads - loads.getD i 0) ∧
    selectProb [3, 5] 0 = 1 ∧ selectProb [3, 5] 1 = 0 ∧
    selectProb [2, 2] 0 = 1 / 2 ∧ selectProb [2, 2] 1 = 1 / 2 := by
  refine ⟨?_, ?_, ?_, ?_, ?_, ?_⟩
  · intro he
    rw [selectWeights, if_pos ((allzero_iff loads).mpr he)]
    rw [List.getD_eq_getElem _ _ (by simpa using h)]
    simp
  · intro he
    rw [selectWeights, if_neg (fun hz => he ((allzero_iff loads).mp hz))]
    rw [List.getD_eq_getElem _ _ (by simpa using h), List.getD_eq_getElem _ _ h]
    simp
  · norm_num [selectProb, selectWeights, maxLoad]
  · norm_num [selectProb, selectWeights, maxLoad]
  · norm_num [selectProb, selectWeights, maxLoad]
  · norm_num [selectProb, selectWeights, maxLoad]

theorem teamAssigner_weighting_witness :
    (0 : Nat) < ([2, 2] : List Nat).length ∧ selectProb [2, 2] 0 = 1 / 2 :=
  ⟨by decide, (teamAssigner_weighting [2, 2] 0 (by decide)).2.2.2.2.1⟩

/-- C5: the reconciliation loop issues exactly one permission write for each
subject whose desired entry differs from the current one (including one
`clear` for each subject present only in the current overlay) and no write
for an unchanged subject; reconciling an overlay against itself issues no
writes at all. -/
theorem reconcile_write_counts (D C : List (Nat × Nat)) (hD : ovNodup D) (hC : ovNodup C) :
    (∀ s : Nat, countWrites s (reconcile D C) =
        if ovLookup C s = ovLookup D s then 0 else 1) ∧
    reconcile D D = [] :=
  ⟨reconcile_count D C hD hC, reconcile_self D hD⟩

theorem reconcile_write_counts_witness :
    ovNodup [(1, 10), (2, 20)] ∧ ovNodup [(2, 20), (3, 30)] ∧
    countWrites 1 (reconcile [(1, 10), (2, 20)] [(2, 20), (3, 30)]) = 1 ∧
    countWrites 2 (reconcile [(1, 10), (2, 20)] [(2, 20), (3, 30)]) = 0 ∧
    countWrites 3 (reconcile [(1, 10), (2, 20)] [(2, 20), (3, 30)]) = 1 ∧
    reconcile [(1, 10), (2, 20)] [(1, 10), (2, 20)] = [] := by
  have h := reconcile_write_counts [(1, 10), (2, 20)] [(2, 20), (3, 30)]
    (by decide) (by decide)
  refine ⟨by decide, by decide, ?_, ?_, ?_, h.2⟩
  · rw [h.1 1]; decide
  · rw [h.1 2]; decide
  · rw [h.1 3]; decide

/-- C7: the chunk boundary is checked after each message write against the
fixed `MAX_FILE = 8_000_000` threshold, so any message sequence whose
cumulative formatted size is exactly the threshold produces 1 chunk and any
sequence of cumulative size threshold + 1 produces 2 chunks; every chunk
other than the last was pushed strictly over the threshold by its final
message before rotation opened a fresh chunk. -/
theorem transcript_chunking (s1 s2 : List Nat) (h1 : s1.sum = MAX_FILE)
    (h2 : s2.sum = MAX_FILE + 1) :
    (logChunks s1).length = 1 ∧ (logChunks s2).length = 2 ∧
      ∀ sizes : List Nat, ∀ x ∈ (logChunks sizes).dropLast, MAX_FILE < x := by
  refine ⟨?_, ?_, ?_⟩
  · obtain ⟨⟨c, rest, heq, hc, hrest⟩, hsum⟩ := logChunksRev_spec s1
    rw [heq, List.sum_cons, h1] at hsum
    have hre : rest = [] := by
      cases rest with
      | nil => rfl
      | cons x more =>
        have hx := hrest x (by simp)
        have : x ≤ (x :: more).sum := List.single_le_sum (fun y _ => Nat.zero_le y) x (by simp)
        simp only [List.sum_cons] at this hsum
        omega
    simp [logChunks, heq, hre]
  · obtain ⟨⟨c, rest, heq, hc, hrest⟩, hsum⟩ := logChunksRev_spec s2
    rw [heq, List.sum_cons, h2] at hsum
    cases rest with
    | nil => simp at hsum; omega
    | cons x more =>
      cases more with
      | nil => simp [logChunks, heq]
      | cons y more' =>
        have hx := hrest x (by simp)
        have hy := hrest y (by simp)
        have : y ≤ (y :: more').sum := List.single_le_sum (fun z _ => Nat.zero_le z) y (by simp)
        simp only [List.sum_cons] at hsum this
        omega
  · intro sizes x hx
    obtain ⟨⟨c, rest, heq, hc, hrest⟩, _⟩ := logChunksRev_spec sizes
    rw [logChunks, heq, List.reverse_cons, List.dropLast_concat] at hx
    exact hrest x (List.mem_reverse.mp hx)

theorem transcript_chunking_witness :
    List.sum [MAX_FILE] = MAX_FILE ∧ List.sum [MAX_FILE, 1] = MAX_FILE + 1 ∧
    (logChunks [MAX_FILE]).length = 1 ∧ (logChunks [MAX_FILE, 1]).length = 2 := by
  have h := transcript_chunking [MAX_FILE] [MAX_FILE, 1] (by decide) (by decide)
  exact ⟨by decide, by decide, h.1, h.2.1⟩

/-- C9: when a collaborator call fails during provisioning (after the
confirmation was accepted and all validations passed), the half-created
operation is *not* removed from the registry and already-created resources
are *not* rolled back: with the team-channel creation raising, the guild
stays registered and the category that was already provisioned stays. -/
theorem start_provisioning_failure_keeps_registration :
    start_update ⟨false, false, true, true, true, true, false, true⟩ =
      ⟨true, true, false, false, .collaboratorError⟩ ∧
    start_update ⟨false, false, true, true, true, false, true, true⟩ =
      ⟨true, false, false, false, .collaboratorError⟩ := by
  exact ⟨rfl, rfl⟩

/-! ## Roster helper lemmas -/

theorem forall₂_mem_right {R : Team → Team → Prop} :
    ∀ {l l' : List Team}, List.Forall₂ R l l' → ∀ b ∈ l', ∃ a ∈ l, R a b := by
  intro l l' h
  induction h with
  | nil => intro b hb; cases hb
  | cons hab htail ih =>
    intro b hb
    rcases List.mem_cons.mp hb with rfl | hb
    · exact ⟨_, List.mem_cons_self _ _, hab⟩
    · obtain ⟨a, ha, har⟩ := ih b hb
      exact ⟨a, List.mem_cons.mpr (Or.inr ha), har⟩

theorem kickTeams_forall₂ : ∀ (ts : List Team) (m : Nat),
    List.Forall₂ (fun a b => b.leader = a.leader ∧ b.soldiers ⊆ a.soldiers)
      ts (kickTeams ts m).1 := by
  intro ts m
  induction ts with
  | nil => exact List.Forall₂.nil
  | cons t rest ih =>
    by_cases hl : m = t.leader
    · rw [kickTeams, if_pos hl]
      refine List.Forall₂.cons ⟨rfl, subset_rfl⟩ ?_
      clear ih hl
      induction rest with
      | nil => exact List.Forall₂.nil
      | cons u us ihu => exact List.Forall₂.cons ⟨rfl, subset_rfl⟩ ihu
    · rw [kickTeams, if_neg hl]
      exact List.Forall₂.cons ⟨rfl, Finset.erase_subset m t.soldiers⟩ ih

theorem pairwise_disjoint_of_forall₂ {ts ts' : List Team}
    (hF : List.Forall₂ (fun a b => b.leader = a.leader ∧ b.soldiers ⊆ a.soldiers) ts ts')
    (hD : ts.Pairwise (fun a b => ∀ m ∈ a.soldiers, m ∉ b.soldiers)) :
    ts'.Pairwise (fun a b => ∀ m ∈ a.soldiers, m ∉ b.soldiers) := by
  induction hF with
  | nil => exact List.Pairwise.nil
  | cons hab htail ih =>
    rw [List.pairwise_cons] at hD ⊢
    refine ⟨?_, ih hD.2⟩
    intro b' hb' m hm hmb
    obtain ⟨b, hb, hbl, hbs⟩ := forall₂_mem_right htail b' hb'
    exact hD.1 b hb m (hab.2 hm) (hbs hmb)

theorem leaders_excluded_of_forall₂ {ts ts' : List Team}
    (hF : List.Forall₂ (fun a b => b.leader = a.leader ∧ b.soldiers ⊆ a.soldiers) ts ts')
    (hL : ∀ t ∈ ts, ∀ u ∈ ts, t.leader ∉ u.soldiers) :
    ∀ t ∈ ts', ∀ u ∈ ts', t.leader ∉ u.soldiers := by
  intro t' ht' u' hu' hmem
  obtain ⟨t, ht, htl, _⟩ := forall₂_mem_right hF t' ht'
  obtain ⟨u, hu, _, hus⟩ := forall₂_mem_right hF u' hu'
  exact hL t ht u hu (htl ▸ hus hmem)

theorem assignTeam_mem : ∀ (ts : List Team) (j m : Nat), ∀ u ∈ assignTeam ts j m,
    ∃ u₀ ∈ ts, u.leader = u₀.leader ∧ u.soldiers ⊆ insert m u₀.soldiers := by
  intro ts
  induction ts with
  | nil => intro j m u hu; cases hu
  | cons t rest ih =>
    intro j m u hu
    cases j with
    | zero =>
      rw [assignTeam] at hu
      rcases List.mem_cons.mp hu with rfl | hu
      · exact ⟨t, List.mem_cons_self _ _, rfl, subset_rfl⟩
      · exact ⟨u, List.mem_cons.mpr (Or.inr hu), rfl,
          le_trans (Finset.subset_insert m u.soldiers) subset_rfl⟩
    | succ j' =>
      rw [assignTeam] at hu
      rcases List.mem_cons.mp hu with rfl | hu
      · exact ⟨u, List.mem_cons_self _ _, rfl, Finset.subset_insert m u.soldiers⟩
      · obtain ⟨u₀, hu₀, h1, h2⟩ := ih j' m u hu
        exact ⟨u₀, List.mem_cons.mpr (Or.inr hu₀), h1, h2⟩

theorem assignTeam_pairwise : ∀ (ts : List Team) (j m : Nat),
    (∀ t ∈ ts, m ∉ t.soldiers) →
    ts.Pairwise (fun a b => ∀ x ∈ a.soldiers, x ∉ b.soldiers) →
    (assignTeam ts j m).Pairwise (fun a b => ∀ x ∈ a.soldiers, x ∉ b.soldiers) := by
  intro ts
  induction ts with
  | nil => intro j m _ _; exact List.Pairwise.nil
  | cons t rest ih =>
    intro j m hm hD
    rw [List.pairwise_cons] at hD
    cases j with
    | zero =>
      rw [assignTeam, List.pairwise_cons]
      refine ⟨?_, hD.2⟩
      intro u hu x hx hxu
      rcases Finset.mem_insert.mp hx with rfl | hx
      · exact hm u (List.mem_cons.mpr (Or.inr hu)) hxu
      · exact hD.1 u hu x hx hxu
    | succ j' =>
      rw [assignTeam, List.pairwise_cons]
      refine ⟨?_, ih j' m (fun u hu => hm u (List.mem_cons.mpr (Or.inr hu))) hD.2⟩
      intro u' hu' x hx hxu
      obtain ⟨u₀, hu₀, _, hsub⟩ := assignTeam_mem rest j' m u' hu'
      rcases Finset.mem_insert.mp (hsub hxu) with rfl | hx0
      · exact hm t (List.mem_cons_self _ _) hx
      · exact hD.1 u₀ hu₀ x hx hx0

theorem assignTeam_leaders : ∀ (ts : List Team) (j m : Nat),
    (∀ t ∈ ts, t.leader ≠ m) →
    (∀ t ∈ ts, ∀ u ∈ ts, t.leader ∉ u.soldiers) →
    ∀ t ∈ assignTeam ts j m, ∀ u ∈ assignTeam ts j m, t.leader ∉ u.soldiers := by
  intro ts j m hm hL t' ht' u' hu' hmem
  obtain ⟨t₀, ht₀, htl, _⟩ := assignTeam_mem ts j m t' ht'
  obtain ⟨u₀, hu₀, _, hus⟩ := assignTeam_mem ts j m u' hu'
  rcases Finset.mem_insert.mp (hus hmem) with he | hx0
  · exact hm t₀ ht₀ (htl ▸ he)
  · exact hL t₀ ht₀ u₀ hu₀ (htl ▸ hx0)

theorem invariant_kickTeams {s : OpState} (m : Nat) (bl : Finset Nat) (h : Invariant s) :
    Invariant ⟨(kickTeams s.teams m).1, bl⟩ := by
  obtain ⟨hD, hL⟩ := h
  exact ⟨pairwise_disjoint_of_forall₂ (kickTeams_forall₂ s.teams m) hD,
    leaders_excluded_of_forall₂ (kickTeams_forall₂ s.teams m) hL⟩

theorem invariant_opkick {s : OpState} (actor target : Nat) (special : Bool)
    (role : Nat → Nat) (h : Invariant s) :
    Invariant (opkick s actor target special role).1 := by
  rw [opkick]
  split
  · exact h
  · split
    · exact h
    · split
      · exact invariant_kickTeams target s.blacklist h
      · exact invariant_kickTeams target s.blacklist h

theorem invariant_opban {s : OpState} (actor target : Nat) (special : Bool)
    (role : Nat → Nat) (h : Invariant s) :
    Invariant (opban s actor target special role).1 := by
  rw [opban]
  split
  · exact h
  · split
    · exact h
    · split
      · exact invariant_kickTeams target (insert target s.blacklist) h
      · exact invariant_kickTeams target (insert target s.blacklist) h

theorem invariant_join {s : OpState} (m : Nat) (b g : Bool) (j : Nat)
    (hfresh : freshJoiner s m = true) (h : Invariant s) :
    Invariant (on_voice_join s m b g j) := by
  rw [freshJoiner, List.all_eq_true] at hfresh
  have hml : ∀ t ∈ s.teams, t.leader ≠ m := by
    intro t ht
    have := hfresh t ht
    simp only [Bool.and_eq_true, decide_eq_true_eq] at this
    exact this.1
  have hms : ∀ t ∈ s.teams, m ∉ t.soldiers := by
    intro t ht
    have := hfresh t ht
    simp only [Bool.and_eq_true, decide_eq_true_eq] at this
    exact this.2
  obtain ⟨hD, hL⟩ := h
  rw [on_voice_join]
  split
  · exact ⟨hD, hL⟩
  · split
    · exact ⟨hD, hL⟩
    · split
      · exact ⟨hD, hL⟩
      · split
        · exact ⟨assignTeam_pairwise s.teams 0 m hms hD,
            assignTeam_leaders s.teams 0 m hml hL⟩
        · exact ⟨assignTeam_pairwise s.teams j m hms hD,
            assignTeam_leaders s.teams j m hml hL⟩

theorem kickTeams_err_of_leader : ∀ (ts : List Team) (m : Nat),
    (∃ t ∈ ts, t.leader = m) → (kickTeams ts m).2 = true := by
  intro ts m
  induction ts with
  | nil => rintro ⟨t, ht, _⟩; cases ht
  | cons t rest ih =>
    rintro ⟨u, hu, hul⟩
    by_cases hl : m = t.leader
    · rw [kickTeams, if_pos hl]
    · rw [kickTeams, if_neg hl]
      rcases List.mem_cons.mp hu with rfl | hu
      · exact absurd hul.symm hl
      · exact ih ⟨u, hu, hul⟩

/-- Number of teams whose soldier set contains `m`. -/
def countMem (ts : List Team) (m : Nat) : Nat :=
  ts.countP (fun t => decide (m ∈ t.soldiers))

theorem kickTeams_card_sum : ∀ (ts : List Team) (m : Nat), (kickTeams ts m).2 = false →
    ((kickTeams ts m).1.map (fun t => t.soldiers.card)).sum + countMem ts m =
      (ts.map (fun t => t.soldiers.card)).sum := by
  intro ts m
  induction ts with
  | nil => intro _; rfl
  | cons t rest ih =>
    intro herr
    by_cases hl : m = t.leader
    · rw [kickTeams, if_pos hl] at herr
      cases herr
    · rw [kickTeams, if_neg hl] at herr ⊢
      have := ih herr
      simp only [List.map_cons, List.sum_cons, countMem, List.countP_cons] at *
      by_cases hm : m ∈ t.soldiers
      · have hce : (t.soldiers.erase m).card + 1 = t.soldiers.card :=
          Finset.card_erase_add_one hm
        rw [decide_eq_true hm, if_pos rfl]
        omega
      · rw [Finset.erase_eq_of_not_mem hm, decide_eq_false hm, if_neg Bool.false_ne_true]
        omega

theorem countMem_eq_one : ∀ (ts : List Team) (m : Nat),
    ts.Pairwise (fun a b => ∀ x ∈ a.soldiers, x ∉ b.soldiers) →
    (∃ t ∈ ts, m ∈ t.soldiers) → countMem ts m = 1 := by
  intro ts m
  induction ts with
  | nil => rintro _ ⟨t, ht, _⟩; cases ht
  | cons t rest ih =>
    rintro hD ⟨u, hu, hum⟩
    rw [List.pairwise_cons] at hD
    rw [countMem, List.countP_cons, ← countMem]
    by_cases hm : m ∈ t.soldiers
    · have hz : countMem rest m = 0 := by
        rw [countMem, List.countP_eq_zero]
        intro u' hu'
        simp only [decide_eq_true_eq]
        exact hD.1 u' hu' m hm
      simp [hz, hm]
    · rcases List.mem_cons.mp hu with rfl | hu
      · exact absurd hum hm
      · have := ih hD.2 ⟨u, hu, hum⟩
        simp [this, hm]

theorem assignTeam_card_sum : ∀ (ts : List Team) (j m : Nat), j < ts.length →
    m ∉ (ts.getD j dteam).soldiers →
    ((assignTeam ts j m).map (fun t => t.soldiers.card)).sum =
      (ts.map (fun t => t.soldiers.card)).sum + 1 := by
  intro ts
  induction ts with
  | nil => intro j m hj _; cases hj
  | cons t rest ih =>
    intro j m hj hm
    cases j with
    | zero =>
      rw [List.getD_cons_zero] at hm
      rw [assignTeam]
      simp only [List.map_cons, List.sum_cons, Finset.card_insert_of_not_mem hm]
      omega
    | succ j' =>
      rw [List.getD_cons_succ] at hm
      rw [assignTeam]
      simp only [List.map_cons, List.sum_cons,
        ih j' m (Nat.lt_of_succ_lt_succ hj) hm]
      omega

/-- C2 does not hold unconditionally: from a valid two-team state, a join
event for the id of team 0's leader (a possible `random.choices` draw, its
weight is positive) is accepted by the handler — it never checks that the
joiner is not a leader or an existing soldier — and leaves the leader inside
a soldier set, violating the invariant. -/
theorem roster_invariant_counterexample :
    Invariant ⟨[⟨1, ∅⟩, ⟨2, ∅⟩], ∅⟩ ∧
    0 < (selectWeights (loads ⟨[⟨1, ∅⟩, ⟨2, ∅⟩], ∅⟩)).getD 0 0 ∧
    ¬ Invariant (on_voice_join ⟨[⟨1, ∅⟩, ⟨2, ∅⟩], ∅⟩ 1 false true 0) := by decide

/-- C2 (amended): the soldier sets stay pairwise disjoint and free of
leaders across every sequence of join, kick and ban actions in which each
join's member is fresh — no team's leader and not already any team's
soldier — at the moment it joins; kicks and bans need no side condition. -/
theorem roster_invariant_preserved (role : Nat → Nat) (s : OpState) (steps : List Step)
    (hs : Invariant s) (hg : good role s steps = true) : Invariant (run role s steps) := by
  induction steps generalizing s with
  | nil => exact hs
  | cons st rest ih =>
    rw [run]
    cases st with
    | join m b g j =>
      rw [good, Bool.and_eq_true] at hg
      exact ih _ (invariant_join m b g j hg.1 hs) hg.2
    | kick a t sp =>
      simp only [good, Bool.true_and] at hg
      exact ih _ (invariant_opkick a t sp role hs) hg
    | ban a t sp =>
      simp only [good, Bool.true_and] at hg
      exact ih _ (invariant_opban a t sp role hs) hg

theorem roster_invariant_preserved_witness :
    Invariant ⟨[⟨1, ∅⟩, ⟨2, ∅⟩], ∅⟩ ∧
    good (fun _ => 0) ⟨[⟨1, ∅⟩, ⟨2, ∅⟩], ∅⟩
      [.join 5 false true 0, .join 6 false true 1, .ban 1 5 true, .kick 2 6 true] = true ∧
    Invariant (run (fun _ => 0) ⟨[⟨1, ∅⟩, ⟨2, ∅⟩], ∅⟩
      [.join 5 false true 0, .join 6 false true 1, .ban 1 5 true, .kick 2 6 true]) :=
  ⟨by decide, by decide,
    roster_invariant_preserved (fun _ => 0) ⟨[⟨1, ∅⟩, ⟨2, ∅⟩], ∅⟩
      [.join 5 false true 0, .join 6 false true 1, .ban 1 5 true, .kick 2 6 true]
      (by decide) (by decide)⟩

/-- C3: a ban that is rejected with the leader-protection error has already
mutated the operation blacklist, because `opban` inserts the target before
the team loop's leader check runs; the identically-rejected kick leaves the
state untouched. The claim's "no mutation at all on a rejected call" is
therefore violated by the code. -/
theorem opban_rejected_mutates_blacklist :
    (opban ⟨[⟨1, ∅⟩, ⟨2, {5}⟩], ∅⟩ 9 1 true (fun _ => 0)).2 = .leaderProtected ∧
    (opban ⟨[⟨1, ∅⟩, ⟨2, {5}⟩], ∅⟩ 9 1 true (fun _ => 0)).1.blacklist = {1} ∧
    (⟨[⟨1, ∅⟩, ⟨2, {5}⟩], ∅⟩ : OpState).blacklist = ∅ ∧
    (opkick ⟨[⟨1, ∅⟩, ⟨2, {5}⟩], ∅⟩ 9 1 true (fun _ => 0)).2 = .leaderProtected ∧
    (opkick ⟨[⟨1, ∅⟩, ⟨2, {5}⟩], ∅⟩ 9 1 true (fun _ => 0)).1 =
      ⟨[⟨1, ∅⟩, ⟨2, {5}⟩], ∅⟩ := by decide

/-- C4 does not hold as stated: when the target is a team leader but the
actor is neither special nor of strictly higher rank, the command fails
with the insufficient-authority message, not the leader-protection one —
the rank check at lines 535/561 runs before the leader loop. -/
theorem leader_kick_error_counterexample :
    (∃ t ∈ ([⟨1, ∅⟩, ⟨2, {5}⟩] : List Team), t.leader = 1) ∧
    (opkick ⟨[⟨1, ∅⟩, ⟨2, {5}⟩], ∅⟩ 3 1 false (fun n => if n = 1 then 5 else 1)).2 =
      .insufficientAuthority ∧
    (opban ⟨[⟨1, ∅⟩, ⟨2, {5}⟩], ∅⟩ 3 1 false (fun n => if n = 1 then 5 else 1)).2 =
      .insufficientAuthority ∧
    OpResult.insufficientAuthority ≠ OpResult.leaderProtected := by decide

/-- C4 (amended): kick and ban fail with the self-target error whenever
target = actor, regardless of authority; they fail with the
leader-protection error whenever the target is a team leader *and* the rank
check does not fire first (actor is special, or strictly outranks the
target); when the actor is not special and does not outrank the target, the
insufficient-authority error takes precedence and no mutation occurs. -/
theorem kick_ban_error_precedence (s : OpState) (actor target : Nat) (special : Bool)
    (role : Nat → Nat) :
    (opkick s actor actor special role = (s, .selfTarget) ∧
      opban s actor actor special role = (s, .selfTarget)) ∧
    (target ≠ actor → (special = true ∨ role target < role actor) →
      (∃ t ∈ s.teams, t.leader = target) →
      (opkick s actor target special role).2 = .leaderProtected ∧
      (opban s actor target special role).2 = .leaderProtected) ∧
    (target ≠ actor → special = false → role actor ≤ role target →
      opkick s actor target special role = (s, .insufficientAuthority) ∧
      opban s actor target special role = (s, .insufficientAuthority)) := by
  refine ⟨⟨?_, ?_⟩, ?_, ?_⟩
  · rw [opkick, if_pos rfl]
  · rw [opban, if_pos rfl]
  · intro hne hrank hlead
    have hcond : ¬ ((!special && decide (role actor ≤ role target)) = true) := by
      rcases hrank with hsp | hlt
      · simp [hsp]
      · simp [decide_eq_false (Nat.not_le.mpr hlt)]
    have herr := kickTeams_err_of_leader s.teams target hlead
    constructor
    · rw [opkick, if_neg hne, if_neg hcond, if_pos herr]
    · rw [opban, if_neg hne, if_neg hcond, if_pos herr]
  · intro hne hsp hle
    have hcond : (!special && decide (role actor ≤ role target)) = true := by
      simp [hsp, decide_eq_true hle]
    constructor
    · rw [opkick, if_neg hne, if_pos hcond]
    · rw [opban, if_neg hne, if_pos hcond]

theorem kick_ban_error_precedence_witness :
    (opkick ⟨[⟨1, ∅⟩], ∅⟩ 3 3 true (fun _ => 0)).2 = .selfTarget ∧
    (opkick ⟨[⟨1, ∅⟩], ∅⟩ 3 1 true (fun _ => 0)).2 = .leaderProtected ∧
    (opban ⟨[⟨1, ∅⟩], ∅⟩ 3 1 true (fun _ => 0)).2 = .leaderProtected := by
  have h := kick_ban_error_precedence ⟨[⟨1, ∅⟩], ∅⟩ 3 1 true (fun _ => 0)
  have h2 := h.2.1 (by decide) (Or.inl rfl) (by decide)
  refine ⟨?_, h2.1, h2.2⟩
  rw [h.1.1]

/-- C8 does not hold as stated: a kick of a member who is in no team's
soldier set still runs to completion and reports success ("Member ... has
been kicked from this op."), leaving the total soldier count unchanged
rather than decreasing it by 1. -/
theorem soldier_count_counterexample :
    (opkick ⟨[⟨1, {10}⟩, ⟨2, ∅⟩], ∅⟩ 3 9 true (fun _ => 0)).2 = .success ∧
    totalSoldiers (opkick ⟨[⟨1, {10}⟩, ⟨2, ∅⟩], ∅⟩ 3 9 true (fun _ => 0)).1 =
      totalSoldiers ⟨[⟨1, {10}⟩, ⟨2, ∅⟩], ∅⟩ := by decide

/-- C8 (amended): under the roster invariant, a successful kick or ban whose
target is a soldier of some team decreases the total soldier count by
exactly 1, and a join event that passes the guards and whose member is not
already in the drawn team increases it by exactly 1; a "successful" kick or
ban of a member in no team leaves the count unchanged. -/
theorem soldier_count_delta (s : OpState) (actor target member : Nat) (special : Bool)
    (role : Nat → Nat) (j : Nat) :
    (Invariant s → (∃ t ∈ s.teams, target ∈ t.soldiers) →
      (opkick s actor target special role).2 = .success →
      totalSoldiers (opkick s actor target special role).1 + 1 = totalSoldiers s) ∧
    (Invariant s → (∃ t ∈ s.teams, target ∈ t.soldiers) →
      (opban s actor target special role).2 = .success →
      totalSoldiers (opban s actor target special role).1 + 1 = totalSoldiers s) ∧
    (member ∉ s.blacklist →
      (if s.teams.length = 1 then 0 else j) < s.teams.length →
      member ∉ (s.teams.getD (if s.teams.length = 1 then 0 else j) dteam).soldiers →
      totalSoldiers (on_voice_join s member false true j) = totalSoldiers s + 1) := by
  refine ⟨?_, ?_, ?_⟩
  · intro hinv hmem hsucc
    rw [opkick] at hsucc ⊢
    by_cases h1 : target = actor
    · rw [if_pos h1] at hsucc; cases hsucc
    · rw [if_neg h1] at hsucc ⊢
      by_cases h2 : (!special && decide (role actor ≤ role target)) = true
      · rw [if_pos h2] at hsucc; cases hsucc
      · rw [if_neg h2] at hsucc ⊢
        by_cases h3 : (kickTeams s.teams target).2 = true
        · rw [if_pos h3] at hsucc; cases hsucc
        · rw [if_neg h3] at hsucc ⊢
          have h3f : (kickTeams s.teams target).2 = false := by
            cases hb : (kickTeams s.teams target).2
            · rfl
            · exact absurd hb h3
          have hcnt := countMem_eq_one s.teams target hinv.1 hmem
          have hsum := kickTeams_card_sum s.teams target h3f
          show ((kickTeams s.teams target).1.map (fun t => t.soldiers.card)).sum + 1 =
            (s.teams.map (fun t => t.soldiers.card)).sum
          omega
  · intro hinv hmem hsucc
    rw [opban] at hsucc ⊢
    by_cases h1 : target = actor
    · rw [if_pos h1] at hsucc; cases hsucc
    · rw [if_neg h1] at hsucc ⊢
      by_cases h2 : (!special && decide (role actor ≤ role target)) = true
      · rw [if_pos h2] at hsucc; cases hsucc
      · rw [if_neg h2] at hsucc ⊢
        by_cases h3 : (kickTeams s.teams target).2 = true
        · rw [if_pos h3] at hsucc; cases hsucc
        · rw [if_neg h3] at hsucc ⊢
          have h3f : (kickTeams s.teams target).2 = false := by
            cases hb : (kickTeams s.teams target).2
            · rfl
            · exact absurd hb h3
          have hcnt := countMem_eq_one s.teams target hinv.1 hmem
          have hsum := kickTeams_card_sum s.teams target h3f
          show ((kickTeams s.teams target).1.map (fun t => t.soldiers.card)).sum + 1 =
            (s.teams.map (fun t => t.soldiers.card)).sum
          omega
  · intro hbl hj hm
    rw [on_voice_join, if_neg Bool.false_ne_true, if_neg (by decide), if_neg hbl]
    by_cases hlen : s.teams.length = 1
    · rw [if_pos hlen] at hj hm ⊢
      show ((assignTeam s.teams 0 member).map (fun t => t.soldiers.card)).sum =
        (s.teams.map (fun t => t.soldiers.card)).sum + 1
      exact assignTeam_card_sum s.teams 0 member hj hm
    · rw [if_neg hlen] at hj hm ⊢
      show ((assignTeam s.teams j member).map (fun t => t.soldiers.card)).sum =
        (s.teams.map (fun t => t.soldiers.card)).sum + 1
      exact assignTeam_card_sum s.teams j member hj hm

theorem mem_sortedIds {s : Finset Nat} {m : Nat} : m ∈ sortedIds s ↔ m ∈ s := by
  rcases s with ⟨val, nodup⟩
  induction val using Quotient.inductionOn with
  | h l =>
    show m ∈ List.insertionSort (fun a b => a ≤ b) l ↔ _
    rw [List.mem_insertionSort]
    rfl

theorem rosterLe_total_lemma (role : Nat → Nat) :
    ∀ a b : Nat, rosterLe role a b ∨ rosterLe role b a := by
  intro a b
  unfold rosterLe
  omega

theorem rosterLe_trans_lemma (role : Nat → Nat) :
    ∀ a b c : Nat, rosterLe role a b → rosterLe role b c → rosterLe role a c := by
  intro a b c h1 h2
  unfold rosterLe at *
  omega

theorem logAuthors_allbot {msgs : List Message} (h : ∀ m ∈ msgs, m.authorBot = true) :
    logAuthors msgs = ∅ := by
  have aux : ∀ (l : List Message) (acc : Finset Nat), (∀ m ∈ l, m.authorBot = true) →
      l.foldl (fun acc msg => if msg.authorBot then acc else insert msg.authorId acc) acc =
        acc := by
    intro l
    induction l with
    | nil => intro acc _; rfl
    | cons msg rest ih =>
      intro acc hb
      rw [List.foldl_cons, if_pos (hb msg (List.mem_cons_self _ _)),
        ih acc (fun m hm => hb m (List.mem_cons.mpr (Or.inr hm)))]
  exact aux msgs ∅ h

/-- C6 does not hold as stated: with equally-ranked members, soldiers
`{1, 2}`, leader `9`, and non-bot authors `{1, 2, 9}`, the summary the code
produces lists ids `[1, 2]` — the leader is discarded from the author set
before the roster is assembled (appearing only in the embed header), and
rank ties are ordered by *ascending* id — while the spec's claimed roster
`(soldiers ∪ leader) ∪ authors` in descending-rank/descending-id order
would be `[9, 2, 1]`. -/
theorem summary_roster_counterexample :
    logAuthors [⟨1, false, 10⟩, ⟨2, false, 10⟩, ⟨9, false, 10⟩] = {1, 2, 9} ∧
    (logModel (fun _ => 0) {1, 2} 9 [⟨1, false, 10⟩, ⟨2, false, 10⟩, ⟨9, false, 10⟩]).map
        (fun r => r.2.map Prod.fst) = some [1, 2] ∧
    specSummaryRoster (fun _ => 0) {1, 2} 9 {1, 2, 9} = [9, 2, 1] ∧
    ([1, 2] : List Nat) ≠ [9, 2, 1] := by decide

/-- C6 (amended): provided the leader is not tracked as a soldier (the
roster invariant), the archived summary lists exactly
`soldiers ∪ (non-bot authors \ leader)` — the leader is never listed (it
appears only in the embed header), hence never flagged — ordered by
descending authority rank then ascending id, and flags an entry `*` iff it
is not a message author and `✝` iff it is an author but not a tracked
soldier. -/
theorem summary_roster_spec (role : Nat → Nat) (soldiers authors : Finset Nat)
    (leader : Nat) (hleader : leader ∉ soldiers) :
    (∀ m : Nat, m ∈ (summaryEntries role soldiers (authors.erase leader)).map Prod.fst ↔
      (m ∈ soldiers ∨ (m ∈ authors ∧ m ≠ leader))) ∧
    ((summaryEntries role soldiers (authors.erase leader)).map Prod.fst).Pairwise
      (rosterLe role) ∧
    leader ∉ (summaryEntries role soldiers (authors.erase leader)).map Prod.fst ∧
    (∀ p ∈ summaryEntries role soldiers (authors.erase leader),
      (p.2 = some Flag.star ↔ p.1 ∉ authors) ∧
      (p.2 = some Flag.dagger ↔ p.1 ∈ authors ∧ p.1 ∉ soldiers) ∧
      (p.2 = none ↔ p.1 ∈ authors ∧ p.1 ∈ soldiers)) := by
  have hmap : (summaryEntries role soldiers (authors.erase leader)).map Prod.fst =
      List.insertionSort (rosterLe role)
        (sortedIds (soldiers ∪ authors.erase leader)) := by
    rw [summaryEntries, List.map_map]
    exact List.map_id _
  have hmem : ∀ m : Nat,
      m ∈ (summaryEntries role soldiers (authors.erase leader)).map Prod.fst ↔
        (m ∈ soldiers ∨ (m ∈ authors ∧ m ≠ leader)) := by
    intro m
    rw [hmap, List.mem_insertionSort, mem_sortedIds, Finset.mem_union,
      Finset.mem_erase]
    constructor
    · rintro (h | ⟨hne, ha⟩)
      · exact Or.inl h
      · exact Or.inr ⟨ha, hne⟩
    · rintro (h | ⟨ha, hne⟩)
      · exact Or.inl h
      · exact Or.inr ⟨hne, ha⟩
  refine ⟨hmem, ?_, ?_, ?_⟩
  · rw [hmap]
    haveI : IsTotal Nat (rosterLe role) := ⟨rosterLe_total_lemma role⟩
    haveI : IsTrans Nat (rosterLe role) := ⟨rosterLe_trans_lemma role⟩
    exact List.sorted_insertionSort (rosterLe role) _
  · intro hmem9
    rcases (hmem leader).mp hmem9 with h | ⟨_, hne⟩
    · exact hleader h
    · exact hne rfl
  · intro p hp
    rw [summaryEntries] at hp
    obtain ⟨m, hm, hmp⟩ := List.mem_map.mp hp
    have hmne : m ≠ leader := by
      intro he
      rw [List.mem_insertionSort, mem_sortedIds, Finset.mem_union,
        Finset.mem_erase] at hm
      rcases hm with h | ⟨hne, _⟩
      · exact hleader (he ▸ h)
      · exact hne he
    subst hmp
    simp only
    by_cases ha : m ∈ authors
    · have hmm : m ∈ authors.erase leader := Finset.mem_erase.mpr ⟨hmne, ha⟩
      rw [if_neg (by simpa using hmm)]
      by_cases hs : m ∈ soldiers
      · rw [if_neg (by simpa using hs)]
        refine ⟨by simp [ha], by simp [hs], by simp [ha, hs]⟩
      · rw [if_pos hs]
        refine ⟨by simp [ha], by simp [ha, hs], by simp [hs]⟩
    · have hmm : m ∉ authors.erase leader := by
        intro hc
        exact ha (Finset.mem_erase.mp hc).2
      rw [if_pos hmm]
      refine ⟨by simp [ha], by simp [ha], by simp [ha]⟩

theorem summary_roster_spec_witness :
    (9 ∉ ({1, 2} : Finset Nat)) ∧
    9 ∉ (summaryEntries (fun _ => 0) {1, 2}
      (({1, 2, 9} : Finset Nat).erase 9)).map Prod.fst :=
  ⟨by decide, (summary_roster_spec (fun _ => 0) {1, 2} {1, 2, 9} 9 (by decide)).2.2.1⟩

/-- C10: when every message author is a bot, the collected author set is
empty, so the archiver takes the same early return as for an empty channel:
no bundle is produced and nothing is sent. -/
theorem allbot_archive_like_empty (role : Nat → Nat) (soldiers : Finset Nat)
    (leader : Nat) (msgs : List Message) (h : ∀ m ∈ msgs, m.authorBot = true) :
    logModel role soldiers leader msgs = logModel role soldiers leader [] ∧
    logModel role soldiers leader ([] : List Message) = none := by
  refine ⟨?_, rfl⟩
  rw [logModel, if_pos (Or.inr (logAuthors_allbot h))]
  rfl

theorem allbot_archive_like_empty_witness :
    (∀ m ∈ [(⟨1, true, 5⟩ : Message)], m.authorBot = true) ∧
    logModel (fun _ => 0) {1} 0 [⟨1, true, 5⟩] = none := by
  have h := allbot_archive_like_empty (fun _ => 0) {1} 0 [⟨1, true, 5⟩] (by decide)
  exact ⟨by decide, h.1.trans h.2⟩

theorem soldier_count_delta_witness :
    Invariant ⟨[⟨1, {10}⟩, ⟨2, ∅⟩], ∅⟩ ∧
    (opkick ⟨[⟨1, {10}⟩, ⟨2, ∅⟩], ∅⟩ 3 10 true (fun _ => 0)).2 = .success ∧
    totalSoldiers (opkick ⟨[⟨1, {10}⟩, ⟨2, ∅⟩], ∅⟩ 3 10 true (fun _ => 0)).1 + 1 =
      totalSoldiers ⟨[⟨1, {10}⟩, ⟨2, ∅⟩], ∅⟩ ∧
    totalSoldiers (on_voice_join ⟨[⟨1, {10}⟩, ⟨2, ∅⟩], ∅⟩ 7 false true 1) =
      totalSoldiers ⟨[⟨1, {10}⟩, ⟨2, ∅⟩], ∅⟩ + 1 := by
  have h := soldier_count_delta ⟨[⟨1, {10}⟩, ⟨2, ∅⟩], ∅⟩ 3 10 7 true (fun _ => 0) 1
  exact ⟨by decide, by decide,
    h.1 (by decide) (by decide) (by decide),
    h.2.2 (by decide) (by decide) (by decide)⟩

end Operation
